import Mathlib

/-!
A verification development for the GrilleCipher placement engine
(`GrilleCipher.py`). The program scatters words across a random letter
grid: `generate_letter_grid` fills a square grid with random letters,
`place_word_scattered` searches for a reading-order set of cells for one
word under a bounded retry budget, `apply_word_to_grid` commits the
letters, and the main loop threads a growing occupancy set (`forbidden`)
through the placements.

The shared process-wide random source is modelled as a stream
`s : Nat → Nat` of raw draws together with a cursor `i`; each call to
`random.randint(0, size - 1)` consumes one draw and reduces it modulo
`size`, and `random.choice` consumes one draw reduced modulo the
alphabet length. The inner sampling `while` loop of
`place_word_scattered` is not structurally bounded in the source, so it
is modelled with explicit fuel: the outcome `diverge` (when it is
returned for every fuel value) models an infinite loop of the source
program.
-/

namespace GrilleCipher

/-- A grid cell address `(row, column)`. -/
abbrev Coord : Type := Nat × Nat

/-- The mutable letter grid, row major. -/
abbrev Grid : Type := List (List Char)

/-- The stream of raw draws of the shared random source. -/
abbrev RandS : Type := Nat → Nat

/-- The fill alphabet: `string.ascii_uppercase + "ÄÖÜß"`. -/
def letters : List Char := "ABCDEFGHIJKLMNOPQRSTUVWXYZÄÖÜß".toList

/-- Reading `grid[r][c]`. -/
def gridGet (g : Grid) (r c : Nat) : Char :=
  (g.getD r []).getD c 'A'

/-- The assignment `grid[r][c] = ch` (a no-op out of bounds; the source
only ever indexes in bounds). -/
def gridSet (g : Grid) (r c : Nat) (ch : Char) : Grid :=
  g.set r ((g.getD r []).set c ch)

/-- The function `generate_letter_grid(size)`: a size × size table of random letters.
The list comprehension draws row major, one `random.choice` per cell. -/
def generate_letter_grid (size : Nat) (s : RandS) (i : Nat) : Grid :=
  (List.range size).map fun r =>
    (List.range size).map fun c =>
      letters.getD (s (i + (r * size + c)) % letters.length) 'A'

/-- The occupied-cell filter of the sampling loop:
`(r, c) in forbidden and grid[r][c] not in word` (the coordinate is
resampled exactly when this holds). -/
def rejectOccupied (word : List Char) (grid : Grid) (forbidden : List Coord)
    (p : Coord) : Bool :=
  decide (p ∈ forbidden) && !decide (gridGet grid p.1 p.2 ∈ word)

/-- The inner sampling loop of `place_word_scattered`:
`while len(positions) < len(word)` draw `r`, `c`; skip a coordinate
already chosen in this attempt; skip an occupied coordinate whose
current letter does not occur in the word; otherwise record it.
`fuel` bounds the number of loop iterations (the source loop is
unbounded); `none` means the bound was hit. Returns the chosen
positions and the next cursor of the random stream. -/
def samplePositions (word : List Char) (size : Nat) (grid : Grid)
    (forbidden : List Coord) (s : RandS) :
    Nat → Nat → List Coord → List Coord → Option (List Coord × Nat)
  | 0, i, positions, _ =>
    if positions.length < word.length then none else some (positions, i)
  | fuel + 1, i, positions, chosen =>
    if positions.length < word.length then
      let r := s i % size
      let c := s (i + 1) % size
      if (r, c) ∈ chosen then
        samplePositions word size grid forbidden s fuel (i + 2) positions chosen
      else if rejectOccupied word grid forbidden (r, c) then
        samplePositions word size grid forbidden s fuel (i + 2) positions chosen
      else
        samplePositions word size grid forbidden s fuel (i + 2)
          (positions ++ [(r, c)]) (chosen.insert (r, c))
    else some (positions, i)

/-- Reading order on coordinates: the `sorted(..., key=pos -> (pos[0], pos[1]))`
comparison, lexicographic on (row, column). -/
def readOrder (a b : Coord) : Prop :=
  a.1 < b.1 ∨ (a.1 = b.1 ∧ a.2 ≤ b.2)

instance : DecidableRel readOrder := fun a b =>
  inferInstanceAs (Decidable (a.1 < b.1 ∨ (a.1 = b.1 ∧ a.2 ≤ b.2)))

instance : IsTotal Coord readOrder :=
  ⟨fun a b => by rw [readOrder, readOrder]; omega⟩

instance : IsTrans Coord readOrder :=
  ⟨fun a b c hab hbc => by rw [readOrder] at *; omega⟩

/-- The call `sorted(positions, key=pos -> (pos[0], pos[1]))` (a stable sort of
pairwise distinct coordinates: its output is the unique reading-order
rearrangement). -/
def sortReading (ps : List Coord) : List Coord :=
  List.insertionSort readOrder ps

/-- The per-attempt validation: every already-occupied coordinate must
currently hold exactly the letter the word assigns there after sorting. -/
def validPlacement (word : List Char) (grid : Grid) (forbidden : List Coord)
    (sorted_positions : List Coord) : Bool :=
  (sorted_positions.zip word).all fun pc =>
    !decide (pc.1 ∈ forbidden) || decide (gridGet grid pc.1.1 pc.1.2 = pc.2)

/-- Result of `place_word_scattered`: a successful placement with the
next random-stream cursor, the `RuntimeError` raised when the attempt
budget is exhausted, or divergence of the unbounded inner loop
(out of fuel). -/
inductive PlaceOutcome where
  | ok (positions : List Coord) (i : Nat)
  | failure
  | diverge
deriving DecidableEq

/-- The constant `max_attempts = 5000`. -/
def max_attempts : Nat := 5000

/-- The retry loop of `place_word_scattered`, counting down the
remaining attempts; at zero remaining attempts the `RuntimeError` of
`attempts > max_attempts` fires. -/
def placeLoop (word : List Char) (size : Nat) (grid : Grid)
    (forbidden : List Coord) (s : RandS) :
    Nat → Nat → Nat → PlaceOutcome
  | 0, _, _ => .failure
  | attemptsLeft + 1, fuel, i =>
    match samplePositions word size grid forbidden s fuel i [] [] with
    | none => .diverge
    | some (positions, i') =>
      if validPlacement word grid forbidden (sortReading positions) then
        .ok (sortReading positions) i'
      else placeLoop word size grid forbidden s attemptsLeft fuel i'

/-- The function `place_word_scattered(word, size, grid, forbidden)` with the random
source at cursor `i`. -/
def place_word_scattered (word : List Char) (size : Nat) (grid : Grid)
    (forbidden : List Coord) (s : RandS) (fuel i : Nat) : PlaceOutcome :=
  placeLoop word size grid forbidden s max_attempts fuel i

/-- The commit `apply_word_to_grid(grid, positions, word)`:
`for (r, c), ch in zip(positions, word): grid[r][c] = ch`. -/
def apply_word_to_grid (grid : Grid) (positions : List Coord)
    (word : List Char) : Grid :=
  (positions.zip word).foldl (fun g pc => gridSet g pc.1.1 pc.1.2 pc.2) grid

/-- The state threaded through the `__main__` placement loop. -/
structure RunState where
  grid : Grid
  forbidden : List Coord
  masks : List (List Coord)
  word_positions : List (List Coord)
  i : Nat
deriving DecidableEq

/-- The state right after `generate_letter_grid`: empty occupancy, no
masks, no recorded positions. -/
def initState (grid : Grid) (i : Nat) : RunState :=
  ⟨grid, [], [], [], i⟩

/-- The update `forbidden.update(positions)`. -/
def updateForbidden (forbidden positions : List Coord) : List Coord :=
  positions.foldl (fun f p => f.insert p) forbidden

/-- The main `for word in WORDS` loop of `__main__`: place, commit to the
grid, grow the occupancy set, record mask and positions. `none` models
the run aborting (`RuntimeError`) or the inner loop diverging. -/
def placeAll (size : Nat) (s : RandS) (fuel : Nat) :
    List (List Char) → RunState → Option RunState
  | [], st => some st
  | word :: rest, st =>
    match place_word_scattered word size st.grid st.forbidden s fuel st.i with
    | .ok positions i' =>
      placeAll size s fuel rest
        { grid := apply_word_to_grid st.grid positions word
          forbidden := updateForbidden st.forbidden positions
          masks := st.masks ++ [positions]
          word_positions := st.word_positions ++ [positions]
          i := i' }
    | .failure => none
    | .diverge => none

/-- The whole `__main__` pipeline on seeded randomness: generate the
grid (consuming `size * size` draws), uppercase the words, place them
all. -/
def run (size : Nat) (s : RandS) (fuel : Nat) (words : List (List Char)) :
    Option RunState :=
  placeAll size s fuel (words.map (List.map Char.toUpper))
    (initState (generate_letter_grid size s 0) (size * size))

/-- The grid is a well-formed size × size table. -/
def gridDims (g : Grid) (size : Nat) : Prop :=
  g.length = size ∧ ∀ row ∈ g, row.length = size

/-- Walking `positions` in order and reading the grid yields `word`. -/
def spells (g : Grid) (positions : List Coord) (word : List Char) : Prop :=
  positions.map (fun p => gridGet g p.1 p.2) = word

/-- The letter a placed word assigns to a coordinate of its placement:
the word letter zipped with that coordinate in reading order. -/
def assignedLetter (positions : List Coord) (word : List Char)
    (p : Coord) : Option Char :=
  ((positions.zip word).find? fun pc => pc.1 == p).map fun pc => pc.2

/-- The call loops forever: for every iteration bound the inner sampling
loop is still running. -/
def neverTerminates (word : List Char) (size : Nat) (grid : Grid)
    (forbidden : List Coord) (s : RandS) (i : Nat) : Prop :=
  ∀ fuel, place_word_scattered word size grid forbidden s fuel i = .diverge

/-- The run invariant: every already-placed word (a pair of its
placement coordinates and its letters) is spelled by the current grid
at its coordinates, its coordinates are distinct, and they all sit in
the occupancy set and in bounds. -/
def placedOK (size : Nat) (st : RunState)
    (pairs : List (List Coord × List Char)) : Prop :=
  ∀ pw ∈ pairs, spells st.grid pw.1 pw.2 ∧ pw.1.Nodup ∧
    ∀ p ∈ pw.1, p ∈ st.forbidden ∧ p.1 < size ∧ p.2 < size

/-! ### Invariants of the inner sampling loop -/

theorem samplePositions_spec (word : List Char) (size : Nat) (grid : Grid)
    (forbidden : List Coord) (s : RandS) (hsize : 0 < size) :
    ∀ fuel i positions chosen out i',
    samplePositions word size grid forbidden s fuel i positions chosen = some (out, i') →
    (∀ p, p ∈ chosen ↔ p ∈ positions) →
    positions.Nodup →
    positions.length ≤ word.length →
    (∀ p ∈ positions, p.1 < size ∧ p.2 < size) →
    out.Nodup ∧ out.length = word.length ∧ ∀ p ∈ out, p.1 < size ∧ p.2 < size := by
  intro fuel
  induction fuel with
  | zero =>
    intro i positions chosen out i' h hch hnd hlen hin
    simp only [samplePositions] at h
    split at h
    · simp at h
    · rename_i hge
      obtain ⟨rfl, rfl⟩ := Prod.mk.injEq .. ▸ Option.some.injEq .. ▸ h
      exact ⟨hnd, Nat.le_antisymm hlen (Nat.not_lt.mp hge), hin⟩
  | succ fuel ih =>
    intro i positions chosen out i' h hch hnd hlen hin
    simp only [samplePositions] at h
    split at h
    · rename_i hlt
      split at h
      · exact ih _ _ _ _ _ h hch hnd hlen hin
      · rename_i hmem
        split at h
        · exact ih _ _ _ _ _ h hch hnd hlen hin
        · refine ih _ _ _ _ _ h ?_ ?_ ?_ ?_
          · intro p
            constructor
            · intro hp
              rcases List.mem_insert_iff.mp hp with hp | hp
              · simp [hp]
              · simp [(hch p).mp hp]
            · intro hp
              rcases List.mem_append.mp hp with hp | hp
              · exact List.mem_insert_iff.mpr (Or.inr ((hch p).mpr hp))
              · exact List.mem_insert_iff.mpr (Or.inl (List.mem_singleton.mp hp))
          · refine List.Nodup.append hnd (List.nodup_singleton _) ?_
            intro p hp hq
            rw [List.mem_singleton] at hq
            exact hmem (hq ▸ (hch p).mpr hp)
          · simpa using hlt
          · intro p hp
            rcases List.mem_append.mp hp with hp | hp
            · exact hin p hp
            · rw [List.mem_singleton] at hp
              subst hp
              exact ⟨Nat.mod_lt _ hsize, Nat.mod_lt _ hsize⟩
    · rename_i hge
      obtain ⟨rfl, rfl⟩ := Prod.mk.injEq .. ▸ Option.some.injEq .. ▸ h
      exact ⟨hnd, Nat.le_antisymm hlen (Nat.not_lt.mp hge), hin⟩

/-! ### The retry loop: every success comes from one validated attempt -/

theorem placeLoop_ok (word : List Char) (size : Nat) (grid : Grid)
    (forbidden : List Coord) (s : RandS) :
    ∀ n fuel i ps i', placeLoop word size grid forbidden s n fuel i = .ok ps i' →
    ∃ raw i₀, samplePositions word size grid forbidden s fuel i₀ [] [] = some (raw, i') ∧
      ps = sortReading raw ∧ validPlacement word grid forbidden ps = true := by
  intro n
  induction n with
  | zero => intro fuel i ps i' h; simp [placeLoop] at h
  | succ n ih =>
    intro fuel i ps i' h
    simp only [placeLoop] at h
    split at h
    · exact absurd h (by simp)
    · rename_i positions i₁ heq
      split at h
      · rename_i hval
        obtain ⟨h₁, h₂⟩ := PlaceOutcome.ok.injEq .. ▸ h
        exact ⟨positions, i, h₂ ▸ heq, h₁.symm, h₁ ▸ hval⟩
      · exact ih fuel i₁ ps i' h

/-! ### Reading order and sorting -/

theorem sortReading_perm (ps : List Coord) : (sortReading ps).Perm ps :=
  List.perm_insertionSort readOrder ps

theorem sortReading_sorted (ps : List Coord) :
    (sortReading ps).Pairwise readOrder :=
  List.sorted_insertionSort readOrder ps

/-- Everything a successful `place_word_scattered` call guarantees about
its returned coordinate sequence. -/
theorem place_ok_spec {word : List Char} {size : Nat} {grid : Grid}
    {forbidden : List Coord} {s : RandS} {fuel i : Nat} {ps : List Coord} {i' : Nat}
    (hsize : 0 < size)
    (h : place_word_scattered word size grid forbidden s fuel i = .ok ps i') :
    ps.length = word.length ∧ ps.Nodup ∧
    ps.Pairwise readOrder ∧
    (∀ p ∈ ps, p.1 < size ∧ p.2 < size) ∧
    validPlacement word grid forbidden ps = true := by
  obtain ⟨raw, i₀, hsample, rfl, hvalid⟩ :=
    placeLoop_ok word size grid forbidden s max_attempts fuel i ps i' h
  obtain ⟨hnd, hlen, hin⟩ :=
    samplePositions_spec word size grid forbidden s hsize fuel i₀ [] [] raw i'
      hsample (by simp) (by simp) (by simp) (by simp)
  refine ⟨?_, ?_, sortReading_sorted raw, ?_, hvalid⟩
  · rw [(sortReading_perm raw).length_eq, hlen]
  · exact ((sortReading_perm raw).nodup_iff).mpr hnd
  · intro p hp
    exact hin p ((sortReading_perm raw).mem_iff.mp hp)

/-! ### Reading and writing grid cells -/

theorem gridDims_gridSet {g : Grid} {size r c : Nat} {ch : Char}
    (hg : gridDims g size) : gridDims (gridSet g r c ch) size := by
  obtain ⟨hlen, hrow⟩ := hg
  by_cases hrl : r < g.length
  · refine ⟨by simpa [gridSet] using hlen, ?_⟩
    intro row hmem
    rcases List.mem_or_eq_of_mem_set hmem with hmem | rfl
    · exact hrow row hmem
    · rw [List.length_set, List.getD_eq_getElem _ _ hrl]
      exact hrow _ (List.getElem_mem hrl)
  · rw [gridSet, List.set_eq_of_length_le (Nat.le_of_not_lt hrl)]
    exact ⟨hlen, hrow⟩

theorem gridGet_gridSet_self {g : Grid} {size r c : Nat} {ch : Char}
    (hg : gridDims g size) (hr : r < size) (hc : c < size) :
    gridGet (gridSet g r c ch) r c = ch := by
  obtain ⟨hlen, hrow⟩ := hg
  have hrl : r < g.length := hlen ▸ hr
  have hrowlen : (g[r]?.getD []).length = size := by
    rw [List.getElem?_eq_getElem hrl]
    exact hrow _ (List.getElem_mem hrl)
  simp only [gridGet, gridSet, List.getD_eq_getElem?_getD]
  rw [List.getElem?_set, if_pos rfl, if_pos hrl]
  simp only [Option.getD_some]
  rw [List.getElem?_set, if_pos rfl, hrowlen, if_pos hc]
  rfl

theorem gridGet_gridSet_ne {g : Grid} {r c r' c' : Nat} {ch : Char}
    (h : (r', c') ≠ (r, c)) :
    gridGet (gridSet g r c ch) r' c' = gridGet g r' c' := by
  by_cases hr : r' = r
  · subst hr
    have hc : c' ≠ c := by simpa using h
    by_cases hrl : r' < g.length
    · simp only [gridGet, gridSet, List.getD_eq_getElem?_getD]
      rw [List.getElem?_set, if_pos rfl, if_pos hrl]
      simp only [Option.getD_some]
      rw [List.getElem?_set, if_neg (fun h' => hc h'.symm)]
    · rw [gridSet, List.set_eq_of_length_le (Nat.le_of_not_lt hrl)]
  · simp only [gridGet, gridSet, List.getD_eq_getElem?_getD]
    rw [List.getElem?_set, if_neg (fun h' => hr h'.symm)]

/-! ### Committing a word to the grid -/

theorem apply_cons (g : Grid) (q : Coord) (ch : Char) (ps : List Coord)
    (chs : List Char) :
    apply_word_to_grid g (q :: ps) (ch :: chs) =
      apply_word_to_grid (gridSet g q.1 q.2 ch) ps chs := by
  simp [apply_word_to_grid, List.zip_cons_cons]

theorem apply_nil_word (g : Grid) (ps : List Coord) :
    apply_word_to_grid g ps [] = g := by
  simp [apply_word_to_grid]

theorem gridGet_apply_of_not_mem :
    ∀ (positions : List Coord) (word : List Char) (g : Grid) (p : Coord),
    p ∉ positions →
    gridGet (apply_word_to_grid g positions word) p.1 p.2 = gridGet g p.1 p.2 := by
  intro positions
  induction positions with
  | nil => intro word g p _; simp [apply_word_to_grid]
  | cons q ps ih =>
    intro word g p hp
    cases word with
    | nil => rw [apply_nil_word]
    | cons ch chs =>
      rw [apply_cons, ih chs _ p (fun h => hp (List.mem_cons_of_mem _ h))]
      have hpq : p ≠ q := fun h => hp (h ▸ List.mem_cons_self q ps)
      exact gridGet_gridSet_ne (by simpa using hpq)

theorem gridDims_apply {size : Nat} :
    ∀ (positions : List Coord) (word : List Char) (g : Grid),
    gridDims g size → gridDims (apply_word_to_grid g positions word) size := by
  intro positions
  induction positions with
  | nil => intro word g hg; simpa [apply_word_to_grid] using hg
  | cons q ps ih =>
    intro word g hg
    cases word with
    | nil => rw [apply_nil_word]; exact hg
    | cons ch chs => rw [apply_cons]; exact ih chs _ (gridDims_gridSet hg)

theorem spells_apply {size : Nat} :
    ∀ (positions : List Coord) (word : List Char) (g : Grid),
    gridDims g size → positions.Nodup → positions.length = word.length →
    (∀ p ∈ positions, p.1 < size ∧ p.2 < size) →
    spells (apply_word_to_grid g positions word) positions word := by
  intro positions
  induction positions with
  | nil =>
    intro word g _ _ hlen _
    cases word with
    | nil => simp [spells, apply_word_to_grid]
    | cons ch chs => simp at hlen
  | cons q ps ih =>
    intro word g hg hnd hlen hin
    cases word with
    | nil => simp at hlen
    | cons ch chs =>
      obtain ⟨hq, hnd'⟩ := List.nodup_cons.mp hnd
      rw [apply_cons, spells, List.map_cons]
      simp only [List.cons.injEq]
      constructor
      · rw [gridGet_apply_of_not_mem ps chs _ q hq]
        exact gridGet_gridSet_self hg
          (hin q (List.mem_cons_self q ps)).1 (hin q (List.mem_cons_self q ps)).2
      · exact ih chs _ (gridDims_gridSet hg) hnd' (by simpa using hlen)
          (fun p hp => hin p (List.mem_cons_of_mem _ hp))

theorem gridGet_apply_of_valid {size : Nat} :
    ∀ (positions : List Coord) (word : List Char) (g : Grid)
      (forbidden : List Coord),
    gridDims g size → positions.Nodup → positions.length = word.length →
    (∀ p ∈ positions, p.1 < size ∧ p.2 < size) →
    validPlacement word g forbidden positions = true →
    ∀ p ∈ forbidden,
      gridGet (apply_word_to_grid g positions word) p.1 p.2 = gridGet g p.1 p.2 := by
  intro positions
  induction positions with
  | nil => intro word g forbidden _ _ _ _ _ p _; simp [apply_word_to_grid]
  | cons q ps ih =>
    intro word g forbidden hg hnd hlen hin hvalid p hp
    cases word with
    | nil => simp at hlen
    | cons ch chs =>
      obtain ⟨hq, hnd'⟩ := List.nodup_cons.mp hnd
      rw [validPlacement, List.zip_cons_cons, List.all_cons, Bool.and_eq_true] at hvalid
      obtain ⟨hhead, htail⟩ := hvalid
      have hqin := hin q (List.mem_cons_self q ps)
      have htail' : validPlacement chs (gridSet g q.1 q.2 ch) forbidden ps = true := by
        rw [validPlacement, List.all_eq_true]
        intro pc hpc
        have hpc1 : pc.1 ∈ ps := (List.of_mem_zip hpc).1
        have hne1 : pc.1 ≠ q := fun h => hq (h ▸ hpc1)
        have hne : (pc.1.1, pc.1.2) ≠ (q.1, q.2) := by simpa using hne1
        rw [List.all_eq_true] at htail
        have := htail pc hpc
        rwa [gridGet_gridSet_ne hne]
      rw [apply_cons]
      by_cases hpq : p = q
      · subst hpq
        rw [gridGet_apply_of_not_mem ps chs _ p hq,
          gridGet_gridSet_self hg hqin.1 hqin.2]
        simp only [Bool.or_eq_true, Bool.not_eq_true', decide_eq_true_eq,
          decide_eq_false_iff_not] at hhead
        rcases hhead with hhead | hhead
        · exact absurd hp hhead
        · exact hhead.symm
      · rw [ih chs _ forbidden (gridDims_gridSet hg) hnd' (by simpa using hlen)
          (fun x hx => hin x (List.mem_cons_of_mem _ hx)) htail' p hp]
        exact gridGet_gridSet_ne (by simpa using hpq)

/-! ### The occupancy set and the main placement loop -/

theorem mem_updateForbidden :
    ∀ (positions forbidden : List Coord) (p : Coord),
    p ∈ updateForbidden forbidden positions ↔ p ∈ forbidden ∨ p ∈ positions := by
  intro positions
  induction positions with
  | nil => simp [updateForbidden]
  | cons q ps ih =>
    intro forbidden p
    rw [updateForbidden, List.foldl_cons]
    have : ps.foldl (fun f p => f.insert p) (forbidden.insert q) =
        updateForbidden (forbidden.insert q) ps := rfl
    rw [this, ih]
    simp only [List.mem_insert_iff, List.mem_cons]
    tauto

theorem placeAll_invariant (size : Nat) (s : RandS) (fuel : Nat)
    (hsize : 0 < size) :
    ∀ (words : List (List Char)) (st st' : RunState)
      (pairs : List (List Coord × List Char)),
    placeAll size s fuel words st = some st' →
    gridDims st.grid size →
    st.word_positions = pairs.map Prod.fst →
    placedOK size st pairs →
    ∃ pairs', pairs'.map Prod.snd = words ∧
      st'.word_positions = (pairs ++ pairs').map Prod.fst ∧
      gridDims st'.grid size ∧ placedOK size st' (pairs ++ pairs') := by
  intro words
  induction words with
  | nil =>
    intro st st' pairs h hg hwp hok
    obtain rfl : st = st' := by simpa [placeAll] using h
    exact ⟨[], rfl, by simpa using hwp, hg, by simpa using hok⟩
  | cons word rest ih =>
    intro st st' pairs h hg hwp hok
    rw [placeAll] at h
    split at h
    · rename_i positions i' heq
      obtain ⟨hlen, hnd, _, hin, hvalid⟩ := place_ok_spec hsize heq
      have hpres : ∀ p ∈ st.forbidden,
          gridGet (apply_word_to_grid st.grid positions word) p.1 p.2 =
            gridGet st.grid p.1 p.2 :=
        gridGet_apply_of_valid positions word st.grid st.forbidden hg hnd hlen
          hin hvalid
      have hok₁ : placedOK size
          { grid := apply_word_to_grid st.grid positions word
            forbidden := updateForbidden st.forbidden positions
            masks := st.masks ++ [positions]
            word_positions := st.word_positions ++ [positions]
            i := i' } (pairs ++ [(positions, word)]) := by
        intro pw hpw
        rcases List.mem_append.mp hpw with hpw | hpw
        · obtain ⟨hsp, hnd', hpts⟩ := hok pw hpw
          refine ⟨?_, hnd', ?_⟩
          · rw [spells] at hsp ⊢
            rw [← hsp]
            exact List.map_congr_left fun p hp => hpres p (hpts p hp).1
          · intro p hp
            exact ⟨(mem_updateForbidden positions st.forbidden p).mpr
              (Or.inl (hpts p hp).1), (hpts p hp).2.1, (hpts p hp).2.2⟩
        · rw [List.mem_singleton] at hpw
          subst hpw
          refine ⟨spells_apply positions word st.grid hg hnd hlen hin, hnd, ?_⟩
          intro p hp
          exact ⟨(mem_updateForbidden positions st.forbidden p).mpr (Or.inr hp),
            (hin p hp).1, (hin p hp).2⟩
      obtain ⟨pairs'', hsnd, hwp', hg', hok'⟩ :=
        ih _ st' (pairs ++ [(positions, word)]) h
          (gridDims_apply positions word st.grid hg)
          (by simpa using hwp) hok₁
      refine ⟨(positions, word) :: pairs'', by simpa using hsnd, ?_, hg', ?_⟩
      · simpa using hwp'
      · intro pw hpw
        refine hok' pw ?_
        simpa using hpw
    · exact absurd h (by simp)
    · exact absurd h (by simp)

theorem placeAll_forbidden (size : Nat) (s : RandS) (fuel : Nat) :
    ∀ (words : List (List Char)) (st st' : RunState),
    placeAll size s fuel words st = some st' →
    (∀ p ∈ st.forbidden, p ∈ st'.forbidden) ∧
    ((∀ p, p ∈ st.forbidden ↔ ∃ ps ∈ st.word_positions, p ∈ ps) →
      ∀ p, p ∈ st'.forbidden ↔ ∃ ps ∈ st'.word_positions, p ∈ ps) := by
  intro words
  induction words with
  | nil =>
    intro st st' h
    obtain rfl : st = st' := by simpa [placeAll] using h
    exact ⟨fun p hp => hp, fun h' => h'⟩
  | cons word rest ih =>
    intro st st' h
    rw [placeAll] at h
    split at h
    · rename_i positions i' heq
      obtain ⟨hmono, hunion⟩ := ih _ st' h
      constructor
      · intro p hp
        exact hmono p ((mem_updateForbidden positions st.forbidden p).mpr
          (Or.inl hp))
      · intro hchar
        refine hunion ?_
        intro p
        simp only [mem_updateForbidden, hchar p]
        simp only [List.mem_append, List.mem_singleton]
        constructor
        · rintro (⟨ps, hps, hp⟩ | hp)
          · exact ⟨ps, Or.inl hps, hp⟩
          · exact ⟨positions, Or.inr rfl, hp⟩
        · rintro ⟨ps, hps | hps, hp⟩
          · exact Or.inl ⟨ps, hps, hp⟩
          · exact Or.inr (hps ▸ hp)
    · exact absurd h (by simp)
    · exact absurd h (by simp)

/-! ### Letters assigned by a placement -/

theorem assignedLetter_of_spells :
    ∀ (positions : List Coord) (word : List Char) (g : Grid) (p : Coord),
    spells g positions word → p ∈ positions →
    assignedLetter positions word p = some (gridGet g p.1 p.2) := by
  intro positions
  induction positions with
  | nil => intro word g p _ hp; simp at hp
  | cons q ps ih =>
    intro word g p hs hp
    cases word with
    | nil => rw [spells] at hs; simp at hs
    | cons ch chs =>
      rw [spells, List.map_cons] at hs
      simp only [List.cons.injEq] at hs
      obtain ⟨h1, h2⟩ := hs
      rw [assignedLetter, List.zip_cons_cons]
      by_cases hpq : p = q
      · subst hpq
        rw [List.find?_cons_of_pos _ (by simp)]
        simp [h1]
      · rw [List.find?_cons_of_neg _ (by simpa using Ne.symm hpq)]
        exact ih chs g p h2 ((List.mem_cons.mp hp).resolve_left hpq)

/-! ### Divergence of the sampling loop on oversized words -/

theorem coordList_length_le (size : Nat) (l : List Coord) (hnd : l.Nodup)
    (hin : ∀ p ∈ l, p.1 < size ∧ p.2 < size) : l.length ≤ size * size := by
  have hsub : l.toFinset ⊆ Finset.range size ×ˢ Finset.range size := by
    intro p hp
    rw [List.mem_toFinset] at hp
    exact Finset.mem_product.mpr ⟨Finset.mem_range.mpr (hin p hp).1,
      Finset.mem_range.mpr (hin p hp).2⟩
  calc l.length = l.toFinset.card := (List.toFinset_card_of_nodup hnd).symm
    _ ≤ (Finset.range size ×ˢ Finset.range size).card := Finset.card_le_card hsub
    _ = size * size := by rw [Finset.card_product, Finset.card_range]

theorem samplePositions_none_of_long (word : List Char) (size : Nat)
    (grid : Grid) (forbidden : List Coord) (s : RandS) (hsize : 0 < size)
    (hlong : size * size < word.length) :
    ∀ fuel i positions chosen,
    (∀ p, p ∈ chosen ↔ p ∈ positions) → positions.Nodup →
    (∀ p ∈ positions, p.1 < size ∧ p.2 < size) →
    samplePositions word size grid forbidden s fuel i positions chosen = none := by
  intro fuel
  induction fuel with
  | zero =>
    intro i positions chosen hch hnd hin
    have hlt : positions.length < word.length :=
      Nat.lt_of_le_of_lt (coordList_length_le size positions hnd hin) hlong
    simp [samplePositions, hlt]
  | succ fuel ih =>
    intro i positions chosen hch hnd hin
    have hlt : positions.length < word.length :=
      Nat.lt_of_le_of_lt (coordList_length_le size positions hnd hin) hlong
    simp only [samplePositions]
    rw [if_pos hlt]
    split
    · exact ih _ _ _ hch hnd hin
    · rename_i hmem
      split
      · exact ih _ _ _ hch hnd hin
      · refine ih _ _ _ ?_ ?_ ?_
        · intro p
          rw [List.mem_insert_iff, List.mem_append, List.mem_singleton, hch p]
          tauto
        · refine List.Nodup.append hnd (List.nodup_singleton _) ?_
          intro p hp hq
          rw [List.mem_singleton] at hq
          exact hmem (hq ▸ (hch p).mpr hp)
        · intro p hp
          rcases List.mem_append.mp hp with hp | hp
          · exact hin p hp
          · rw [List.mem_singleton] at hp
            subst hp
            exact ⟨Nat.mod_lt _ hsize, Nat.mod_lt _ hsize⟩

theorem placeLoop_diverge_of_none (word : List Char) (size : Nat) (grid : Grid)
    (forbidden : List Coord) (s : RandS) (n fuel i : Nat)
    (h : samplePositions word size grid forbidden s fuel i [] [] = none) :
    placeLoop word size grid forbidden s (n + 1) fuel i = .diverge := by
  simp [placeLoop, h]

theorem place_diverge_of_long (word : List Char) (size : Nat) (grid : Grid)
    (forbidden : List Coord) (s : RandS) (fuel i : Nat) (hsize : 0 < size)
    (hlong : size * size < word.length) :
    place_word_scattered word size grid forbidden s fuel i = .diverge := by
  rw [place_word_scattered]
  show placeLoop word size grid forbidden s (4999 + 1) fuel i = .diverge
  exact placeLoop_diverge_of_none word size grid forbidden s 4999 fuel i
    (samplePositions_none_of_long word size grid forbidden s hsize hlong fuel i
      [] [] (by simp) (by simp) (by simp))

theorem placeLoop_ne_diverge (word : List Char) (size : Nat) (grid : Grid)
    (forbidden : List Coord) (s : RandS) (fuel : Nat)
    (hsample : ∀ j, samplePositions word size grid forbidden s fuel j [] [] ≠ none) :
    ∀ n i, placeLoop word size grid forbidden s n fuel i ≠ .diverge := by
  intro n
  induction n with
  | zero => intro i h; simp [placeLoop] at h
  | succ n ih =>
    intro i h
    simp only [placeLoop] at h
    split at h
    · rename_i heq
      exact hsample i heq
    · rename_i positions i₁ heq
      split at h
      · exact absurd h (by simp)
      · exact ih i₁ h

/-! ### Claim theorems -/

/-- C1: for every word placed by `place_word_scattered` and then committed
with `apply_word_to_grid`, reading the grid at the returned coordinates,
taken in their stored reading order, yields exactly the word's character
sequence. -/
theorem C1_coverage (word : List Char) (size : Nat) (grid : Grid)
    (forbidden : List Coord) (s : RandS) (fuel i : Nat) (positions : List Coord)
    (i' : Nat) (hsize : 0 < size) (hg : gridDims grid size)
    (h : place_word_scattered word size grid forbidden s fuel i =
      .ok positions i') :
    spells (apply_word_to_grid grid positions word) positions word := by
  obtain ⟨hlen, hnd, _, hin, _⟩ := place_ok_spec hsize h
  exact spells_apply positions word grid hg hnd hlen hin

theorem C1_coverage_witness :
    (0 < 1 ∧ gridDims [['B']] 1 ∧
      place_word_scattered ['A'] 1 [['B']] [] (fun _ => 0) 1 0 =
        PlaceOutcome.ok [(0, 0)] 2) ∧
    spells (apply_word_to_grid [['B']] [(0, 0)] ['A']) [(0, 0)] ['A'] :=
  ⟨⟨by decide, by unfold gridDims; decide, by decide⟩,
    C1_coverage ['A'] 1 [['B']] [] (fun _ => 0) 1 0 [(0, 0)] 2 (by decide)
      (by unfold gridDims; decide) (by decide)⟩

/-- C2: after the full placement sequence, any two placed words whose
coordinate sets intersect assign, by their reading-order position, the
very letter the final grid holds at every shared coordinate. -/
theorem C2_overlap_consistency (size : Nat) (s : RandS) (fuel i₀ : Nat)
    (grid : Grid) (words : List (List Char)) (st' : RunState)
    (hsize : 0 < size) (hg : gridDims grid size)
    (h : placeAll size s fuel words (initState grid i₀) = some st')
    (j k : Nat) (hj : j < words.length) (hk : k < words.length) (p : Coord)
    (hpj : p ∈ st'.word_positions.getD j [])
    (hpk : p ∈ st'.word_positions.getD k []) :
    assignedLetter (st'.word_positions.getD j []) (words.getD j []) p =
      some (gridGet st'.grid p.1 p.2) ∧
    assignedLetter (st'.word_positions.getD k []) (words.getD k []) p =
      some (gridGet st'.grid p.1 p.2) := by
  obtain ⟨pairs', hsnd, hwp, hg', hok⟩ :=
    placeAll_invariant size s fuel hsize words (initState grid i₀) st' [] h hg
      rfl (fun pw hpw => absurd hpw (List.not_mem_nil pw))
  simp only [List.nil_append] at hwp hok
  have hlen : pairs'.length = words.length := by rw [← hsnd, List.length_map]
  have key : ∀ m, m < words.length →
      ∀ q, q ∈ st'.word_positions.getD m [] →
      assignedLetter (st'.word_positions.getD m []) (words.getD m []) q =
        some (gridGet st'.grid q.1 q.2) := by
    intro m hm q hq
    have hm' : m < pairs'.length := by rw [hlen]; exact hm
    have h1 : st'.word_positions.getD m [] = (pairs'.getD m ([], [])).1 := by
      rw [hwp, List.getD_eq_getElem _ _ (by simpa using hm'), List.getElem_map,
        List.getD_eq_getElem _ _ hm']
    have h2 : words.getD m [] = (pairs'.getD m ([], [])).2 := by
      rw [← hsnd, List.getD_eq_getElem _ _ (by simpa using hm'),
        List.getElem_map, List.getD_eq_getElem _ _ hm']
    rw [h1] at hq
    rw [h1, h2]
    have hmem : pairs'.getD m ([], []) ∈ pairs' := by
      rw [List.getD_eq_getElem _ _ hm']
      exact List.getElem_mem hm'
    obtain ⟨hsp, _, _⟩ := hok _ hmem
    exact assignedLetter_of_spells _ _ _ q hsp hq
  exact ⟨key j hj p hpj, key k hk p hpk⟩

theorem C2_overlap_consistency_witness :
    (0 < 1 ∧ gridDims [['B']] 1 ∧
      placeAll 1 (fun _ => 0) 1 [['A']] (initState [['B']] 0) =
        some ⟨[['A']], [(0, 0)], [[(0, 0)]], [[(0, 0)]], 2⟩ ∧
      (0, 0) ∈ ([(0, 0)] : List Coord)) ∧
    (assignedLetter [(0, 0)] ['A'] (0, 0) = some (gridGet [['A']] 0 0) ∧
      assignedLetter [(0, 0)] ['A'] (0, 0) = some (gridGet [['A']] 0 0)) :=
  ⟨⟨by decide, by unfold gridDims; decide, by decide, by decide⟩,
    C2_overlap_consistency 1 (fun _ => 0) 1 0 [['B']] [['A']]
      ⟨[['A']], [(0, 0)], [[(0, 0)]], [[(0, 0)]], 2⟩ (by decide)
      (by unfold gridDims; decide) (by decide) 0 0 (by decide) (by decide)
      (0, 0) (by decide) (by decide)⟩

/-- C3: every successful `place_word_scattered` call returns an ordered
coordinate sequence of the word's length, with pairwise distinct
coordinates, sorted lexicographically by (row, column). -/
theorem C3_result_shape (word : List Char) (size : Nat) (grid : Grid)
    (forbidden : List Coord) (s : RandS) (fuel i : Nat) (ps : List Coord)
    (i' : Nat) (hsize : 0 < size)
    (h : place_word_scattered word size grid forbidden s fuel i = .ok ps i') :
    ps.length = word.length ∧ ps.Nodup ∧ ps.Pairwise readOrder := by
  obtain ⟨h1, h2, h3, _, _⟩ := place_ok_spec hsize h
  exact ⟨h1, h2, h3⟩

theorem C3_result_shape_witness :
    (0 < 1 ∧
      place_word_scattered ['A'] 1 [['B']] [] (fun _ => 0) 1 0 =
        PlaceOutcome.ok [(0, 0)] 2) ∧
    (([(0, 0)] : List Coord).length = (['A'] : List Char).length ∧
      ([(0, 0)] : List Coord).Nodup ∧
      ([(0, 0)] : List Coord).Pairwise readOrder) :=
  ⟨⟨by decide, by decide⟩,
    C3_result_shape ['A'] 1 [['B']] [] (fun _ => 0) 1 0 [(0, 0)] 2 (by decide)
      (by decide)⟩

/-- C4: with the same random stream, grid size and word list, two runs
produce the same grid and the same per-word coordinate sequences. -/
theorem C4_determinism (size fuel : Nat) (words : List (List Char))
    (s₁ s₂ : RandS) (h : ∀ n, s₁ n = s₂ n) :
    generate_letter_grid size s₁ 0 = generate_letter_grid size s₂ 0 ∧
    run size s₁ fuel words = run size s₂ fuel words := by
  obtain rfl : s₁ = s₂ := funext h
  exact ⟨rfl, rfl⟩

theorem C4_determinism_witness :
    (∀ n : Nat, (fun m : Nat => m) n = (fun m : Nat => m) n) ∧
    (generate_letter_grid 2 (fun m : Nat => m) 0 =
        generate_letter_grid 2 (fun m : Nat => m) 0 ∧
      run 2 (fun m : Nat => m) 9 [['H', 'I']] =
        run 2 (fun m : Nat => m) 9 [['H', 'I']]) :=
  ⟨fun _ => rfl, C4_determinism 2 9 [['H', 'I']] _ _ (fun _ => rfl)⟩

/-- C5: the retry budget is the fixed 5000; at an exhausted budget the
loop signals a hard failure carrying no coordinates, and any returned
coordinate sequence is a complete, never truncated, placement. -/
theorem C5_budget_hard_failure (word : List Char) (size : Nat) (grid : Grid)
    (forbidden : List Coord) (s : RandS) (fuel i : Nat) (hsize : 0 < size) :
    max_attempts = 5000 ∧
    placeLoop word size grid forbidden s 0 fuel i = .failure ∧
    ∀ n ps i', placeLoop word size grid forbidden s n fuel i = .ok ps i' →
      ps.length = word.length := by
  refine ⟨rfl, rfl, ?_⟩
  intro n ps i' h
  obtain ⟨raw, i₁, hsample, rfl, _⟩ :=
    placeLoop_ok word size grid forbidden s n fuel i ps i' h
  obtain ⟨_, hlen, _⟩ :=
    samplePositions_spec word size grid forbidden s hsize fuel i₁ [] [] raw i'
      hsample (by simp) (by simp) (by simp) (by simp)
  rw [(sortReading_perm raw).length_eq, hlen]

theorem C5_budget_hard_failure_witness :
    0 < 1 ∧
    (max_attempts = 5000 ∧
      placeLoop ['A'] 1 [['B']] [] (fun _ => 0) 0 1 0 = PlaceOutcome.failure ∧
      ∀ n ps i',
        placeLoop ['A'] 1 [['B']] [] (fun _ => 0) n 1 0 =
          PlaceOutcome.ok ps i' →
        ps.length = (['A'] : List Char).length) :=
  ⟨by decide,
    C5_budget_hard_failure ['A'] 1 [['B']] [] (fun _ => 0) 1 0 (by decide)⟩

/-- C6: a word longer than size² is never rejected up front by the code:
the inner sampling loop simply never completes (for every iteration
bound it is still running), so the call diverges instead of failing
fast. This exhibits the code's behaviour on the failing input class. -/
theorem C6_oversized_word_diverges (word : List Char) (size : Nat)
    (grid : Grid) (forbidden : List Coord) (s : RandS) (fuel i : Nat)
    (hsize : 0 < size) (hlong : size * size < word.length) :
    place_word_scattered word size grid forbidden s fuel i = .diverge :=
  place_diverge_of_long word size grid forbidden s fuel i hsize hlong

theorem C6_oversized_word_diverges_witness :
    (0 < 1 ∧ 1 * 1 < (['A', 'B'] : List Char).length) ∧
    place_word_scattered ['A', 'B'] 1 [['Z']] [] (fun _ => 0) 7 0 =
      PlaceOutcome.diverge :=
  ⟨⟨by decide, by decide⟩,
    C6_oversized_word_diverges ['A', 'B'] 1 [['Z']] [] (fun _ => 0) 7 0
      (by decide) (by decide)⟩

/-- C7 counterexample: a concrete call of `place_word_scattered` (word
"AB" on a 1×1 grid) on which the function loops forever — the attempt
counter never fires because the inner sampling loop never completes. -/
theorem C7_counterexample :
    neverTerminates ['A', 'B'] 1 [['Z']] [] (fun _ => 0) 0 :=
  fun fuel =>
    place_diverge_of_long ['A', 'B'] 1 [['Z']] [] (fun _ => 0) fuel 0
      (by decide) (by decide)

/-- C7 (amended): the retry counter bounds the number of completed
attempts, and the call terminates (returns a placement or signals
failure, never diverging) provided each attempt's inner sampling loop
completes; the counter alone does not guard the inner sampling loop. -/
theorem C7_amended_termination (word : List Char) (size : Nat) (grid : Grid)
    (forbidden : List Coord) (s : RandS) (fuel : Nat)
    (hsample : ∀ j,
      samplePositions word size grid forbidden s fuel j [] [] ≠ none)
    (i : Nat) :
    place_word_scattered word size grid forbidden s fuel i ≠ .diverge :=
  placeLoop_ne_diverge word size grid forbidden s fuel hsample max_attempts i

theorem C7_amended_termination_witness :
    (∀ j, samplePositions ['A'] 1 [['B']] [] (fun _ => 0) 1 j [] [] ≠ none) ∧
    place_word_scattered ['A'] 1 [['B']] [] (fun _ => 0) 1 0 ≠
      PlaceOutcome.diverge := by
  have hs : ∀ j,
      samplePositions ['A'] 1 [['B']] [] (fun _ => 0) 1 j [] [] ≠ none := by
    intro j
    simp [samplePositions, rejectOccupied, gridGet]
  exact ⟨hs, C7_amended_termination ['A'] 1 [['B']] [] (fun _ => 0) 1 hs 0⟩

/-- C8: during sampling, a candidate cell not yet chosen in this attempt
is filtered out exactly when it is occupied and its current grid letter
does not occur in the word; unoccupied cells always pass this filter. -/
theorem C8_occupancy_filter (word : List Char) (size : Nat) (grid : Grid)
    (forbidden : List Coord) (s : RandS) (fuel i : Nat)
    (positions chosen : List Coord) (p : Coord)
    (hp : p = (s i % size, s (i + 1) % size))
    (hlen : positions.length < word.length)
    (hmem : p ∉ chosen) :
    (rejectOccupied word grid forbidden p = true ↔
      p ∈ forbidden ∧ gridGet grid p.1 p.2 ∉ word) ∧
    (p ∉ forbidden → rejectOccupied word grid forbidden p = false) ∧
    (rejectOccupied word grid forbidden p = true →
      samplePositions word size grid forbidden s (fuel + 1) i positions chosen =
        samplePositions word size grid forbidden s fuel (i + 2) positions
          chosen) ∧
    (rejectOccupied word grid forbidden p = false →
      samplePositions word size grid forbidden s (fuel + 1) i positions chosen =
        samplePositions word size grid forbidden s fuel (i + 2)
          (positions ++ [p]) (chosen.insert p)) := by
  subst hp
  refine ⟨?_, ?_, ?_, ?_⟩
  · rw [rejectOccupied]
    simp
  · intro h
    rw [rejectOccupied]
    simp [h]
  · intro hrej
    simp only [samplePositions]
    rw [if_pos hlen, if_neg hmem, if_pos hrej]
  · intro hrej
    simp only [samplePositions]
    rw [if_pos hlen, if_neg hmem, if_neg (by simp [hrej])]

theorem C8_occupancy_filter_witness :
    (((0, 0) : Coord) = ((fun _ : Nat => 0) 0 % 1, (fun _ : Nat => 0) (0 + 1) % 1) ∧
      ([] : List Coord).length < (['A'] : List Char).length ∧
      ((0, 0) : Coord) ∉ ([] : List Coord)) ∧
    ((rejectOccupied ['A'] [['B']] [] (0, 0) = true ↔
        (0, 0) ∈ ([] : List Coord) ∧ gridGet [['B']] 0 0 ∉ (['A'] : List Char)) ∧
      ((0, 0) ∉ ([] : List Coord) →
        rejectOccupied ['A'] [['B']] [] (0, 0) = false) ∧
      (rejectOccupied ['A'] [['B']] [] (0, 0) = true →
        samplePositions ['A'] 1 [['B']] [] (fun _ => 0) (0 + 1) 0 [] [] =
          samplePositions ['A'] 1 [['B']] [] (fun _ => 0) 0 (0 + 2) [] []) ∧
      (rejectOccupied ['A'] [['B']] [] (0, 0) = false →
        samplePositions ['A'] 1 [['B']] [] (fun _ => 0) (0 + 1) 0 [] [] =
          samplePositions ['A'] 1 [['B']] [] (fun _ => 0) 0 (0 + 2)
            ([] ++ [(0, 0)]) (List.insert (0, 0) []))) :=
  ⟨⟨by decide, by decide, by decide⟩,
    C8_occupancy_filter ['A'] 1 [['B']] [] (fun _ => 0) 0 0 [] [] (0, 0)
      (by decide) (by decide) (by decide)⟩

/-- C9: the occupancy set grows monotonically along the placement
sequence and, when it starts as the union of the recorded coordinate
sets, it stays exactly that union. -/
theorem C9_monotone_occupancy (size : Nat) (s : RandS) (fuel : Nat)
    (words : List (List Char)) (st st' : RunState)
    (h : placeAll size s fuel words st = some st') :
    (∀ p ∈ st.forbidden, p ∈ st'.forbidden) ∧
    ((∀ p, p ∈ st.forbidden ↔ ∃ ps ∈ st.word_positions, p ∈ ps) →
      ∀ p, p ∈ st'.forbidden ↔ ∃ ps ∈ st'.word_positions, p ∈ ps) :=
  placeAll_forbidden size s fuel words st st' h

theorem C9_monotone_occupancy_witness :
    placeAll 1 (fun _ => 0) 1 [['A']] (initState [['B']] 0) =
      some ⟨[['A']], [(0, 0)], [[(0, 0)]], [[(0, 0)]], 2⟩ ∧
    ((∀ p ∈ (initState [['B']] 0).forbidden,
        p ∈ (⟨[['A']], [(0, 0)], [[(0, 0)]], [[(0, 0)]], 2⟩ : RunState).forbidden) ∧
      ((∀ p, p ∈ (initState [['B']] 0).forbidden ↔
          ∃ ps ∈ (initState [['B']] 0).word_positions, p ∈ ps) →
        ∀ p,
          p ∈ (⟨[['A']], [(0, 0)], [[(0, 0)]], [[(0, 0)]], 2⟩ : RunState).forbidden ↔
          ∃ ps ∈
            (⟨[['A']], [(0, 0)], [[(0, 0)]], [[(0, 0)]], 2⟩ : RunState).word_positions,
            p ∈ ps)) :=
  ⟨by decide,
    C9_monotone_occupancy 1 (fun _ => 0) 1 [['A']] (initState [['B']] 0)
      ⟨[['A']], [(0, 0)], [[(0, 0)]], [[(0, 0)]], 2⟩ (by decide)⟩

/-- C10: `place_word_scattered` changes no state: the caller's grid and
occupancy set after one loop iteration are exactly the commit
(`apply_word_to_grid` plus `forbidden.update`) applied to the pre-call
state, and a failing or diverging call yields no state change at all. -/
theorem C10_place_no_mutation (size : Nat) (s : RandS) (fuel : Nat)
    (word : List Char) (st : RunState) :
    (∀ st', placeAll size s fuel [word] st = some st' →
      ∃ positions i',
        place_word_scattered word size st.grid st.forbidden s fuel st.i =
          .ok positions i' ∧
        st'.grid = apply_word_to_grid st.grid positions word ∧
        st'.forbidden = updateForbidden st.forbidden positions ∧
        st'.masks = st.masks ++ [positions] ∧
        st'.word_positions = st.word_positions ++ [positions] ∧ st'.i = i') ∧
    (place_word_scattered word size st.grid st.forbidden s fuel st.i =
        .failure → placeAll size s fuel [word] st = none) ∧
    (place_word_scattered word size st.grid st.forbidden s fuel st.i =
        .diverge → placeAll size s fuel [word] st = none) := by
  refine ⟨?_, ?_, ?_⟩
  · intro st' h
    rw [placeAll] at h
    split at h
    · rename_i positions i' heq
      refine ⟨positions, i', heq, ?_⟩
      obtain rfl : _ = st' := by simpa [placeAll] using h
      exact ⟨rfl, rfl, rfl, rfl, rfl⟩
    · exact absurd h (by simp)
    · exact absurd h (by simp)
  · intro h
    rw [placeAll, h]
  · intro h
    rw [placeAll, h]

theorem C10_place_no_mutation_witness :
    (∀ st', placeAll 1 (fun _ => 0) 1 [['A']] (initState [['B']] 0) = some st' →
      ∃ positions i',
        place_word_scattered ['A'] 1 [['B']] [] (fun _ => 0) 1 0 =
          PlaceOutcome.ok positions i' ∧
        st'.grid = apply_word_to_grid [['B']] positions ['A'] ∧
        st'.forbidden = updateForbidden [] positions ∧
        st'.masks = [] ++ [positions] ∧
        st'.word_positions = [] ++ [positions] ∧ st'.i = i') ∧
    (place_word_scattered ['A'] 1 [['B']] [] (fun _ => 0) 1 0 =
        PlaceOutcome.failure →
      placeAll 1 (fun _ => 0) 1 [['A']] (initState [['B']] 0) = none) ∧
    (place_word_scattered ['A'] 1 [['B']] [] (fun _ => 0) 1 0 =
        PlaceOutcome.diverge →
      placeAll 1 (fun _ => 0) 1 [['A']] (initState [['B']] 0) = none) :=
  C10_place_no_mutation 1 (fun _ => 0) 1 ['A'] (initState [['B']] 0)

end GrilleCipher
